import Mathlib

/-
Verification of the mesh-decoding core of the dicom-stl-viewer repository.

The repository's decoders are JavaScript/TypeScript:
  - parsePlyAscii  (PlyViewer screen)     : PLY ASCII text -> indexed geometry
  - parseSTL / parseBinary / parseASCII   : STL byte buffer -> geometry
This file shallowly embeds those functions over plain Lean data:
  - a byte buffer is a `List Nat` (each entry one byte);
  - text is a `List Char`; the TextDecoder step is modelled one char per
    byte (multi-byte UTF-8 sequences are not modelled; every byte and
    string handled by the decoders' own logic is ASCII);
  - a JS number is `Option ℚ`: `none` models NaN (and `undefined`, which
    the decoders only ever use where it coerces to NaN), `some q` a finite
    value.  JS `Number`/`parseInt` parse to exact rationals here; IEEE-754
    rounding is not modelled (no claim depends on rounding);
  - the 32-bit floats of binary STL are kept as their little-endian 32-bit
    words (`Nat`), since no claim depends on the float interpretation;
  - a thrown JS `RangeError` (the only runtime failure the decoders can
    produce, from an out-of-bounds `DataView` access) is `Except.error`.
-/

namespace MeshDecode

/-- JS whitespace as used by `trim`, `\s` and `split(/\s+/)`, restricted to
the ASCII range (the only range the decoders' inputs exercise). -/
def isJsWs (c : Char) : Bool :=
  c = ' ' || c = '\t' || c = '\n' || c = '\r' || c.toNat = 11 || c.toNat = 12

/-- String.prototype.startsWith on char lists. -/
def leadsWith : List Char → List Char → Bool
  | [], _ => true
  | _ :: _, [] => false
  | p :: ps, c :: cs => if p = c then leadsWith ps cs else false

/-- String.prototype.includes on char lists. -/
def occursIn (pat : List Char) : List Char → Bool
  | [] => decide (pat = [])
  | c :: rest => leadsWith pat (c :: rest) || occursIn pat rest

/-- String.prototype.trimStart (ASCII whitespace). -/
def jsTrimStart (s : List Char) : List Char :=
  s.dropWhile isJsWs

/-- String.prototype.trim (ASCII whitespace). -/
def jsTrim (s : List Char) : List Char :=
  ((jsTrimStart s).reverse.dropWhile isJsWs).reverse

/-- String.prototype.split with a single-character string separator:
split at every occurrence, keeping empty pieces (so the result is never
empty and splitting the empty string yields one empty piece). -/
def splitOn (sep : Char) : List Char → List (List Char)
  | [] => [[]]
  | c :: rest =>
    if c = sep then [] :: splitOn sep rest
    else
      match splitOn sep rest with
      | [] => [[c]]
      | h :: t => (c :: h) :: t

/-- Concatenation of the images of a list under a list-valued map
(`Array.prototype.push(...xs)` accumulated over a loop). -/
def mapCat (l : List α) (f : α → List β) : List β :=
  match l with
  | [] => []
  | a :: rest => f a ++ mapCat rest f

/-- A JS number value: `some q` a finite number, `none` the NaN that the
decoders obtain from failed `Number`/`parseInt` parses or from reading a
missing array element. -/
def JsNum : Type := Option ℚ

instance : DecidableEq JsNum := by
  unfold JsNum
  infer_instance

/-- JS `NaN`-propagating addition on possibly-NaN integers. -/
def jsAddO : Option ℤ → Option ℤ → Option ℤ
  | some a, some b => some (a + b)
  | _, _ => none

/-- Array.prototype.slice with integer arguments (negative values count
from the end, everything is clamped to the array bounds). -/
def jsSlice (l : List α) (s e : ℤ) : List α :=
  let len : ℤ := l.length
  let s' : ℤ := if s < 0 then max (len + s) 0 else min s len
  let e' : ℤ := if e < 0 then max (len + e) 0 else min e len
  (l.drop s'.toNat).take (e' - s').toNat

/-- Array.prototype.slice where either bound may be NaN; JS converts NaN
slice bounds to 0. -/
def jsSliceO (l : List α) (s e : Option ℤ) : List α :=
  jsSlice l (s.getD 0) (e.getD 0)

def isDigit (c : Char) : Bool :=
  '0' ≤ c && c ≤ '9'

def digitsToNat (ds : List Char) : Nat :=
  ds.foldl (fun acc c => 10 * acc + (c.toNat - 48)) 0

/-- parseInt(str, 10): skip leading whitespace, optional sign, then a
maximal digit run; NaN (`none`) when no digit follows. Parsing stops at
the first non-digit, as in JS. -/
def jsParseInt (s : List Char) : Option ℤ :=
  let t := jsTrimStart s
  let core : List Char → Option ℤ := fun u =>
    let ds := u.takeWhile isDigit
    if ds = [] then none else some (digitsToNat ds : ℤ)
  match t with
  | '-' :: u => (core u).map (fun v => -v)
  | '+' :: u => core u
  | u => core u

/-- parseInt applied to `arr[i]` where the index may be out of range: JS
then parses the string "undefined", which is NaN. -/
def jsParseIntAt (ls : List (List Char)) (i : Nat) : Option ℤ :=
  match ls.get? i with
  | some tok => jsParseInt tok
  | none => none

/-- The decimal-literal part of JS `Number(str)`: digits with an optional
single dot (digits required on at least one side) and an optional
scientific exponent.  The value is returned as an exact
numerator/denominator pair (assembled with `mkRat` by `jsNumber`; plain
integer arithmetic is used throughout so that concrete inputs evaluate
inside the kernel — `ℚ`'s own arithmetic is irreducible). -/
def jsNumParts (t : List Char) : Option (ℕ × ℕ) :=
  let intPart := t.takeWhile isDigit
  let r1 := t.dropWhile isDigit
  let fracPart : List Char :=
    match r1 with
    | '.' :: u => u.takeWhile isDigit
    | _ => []
  let r2 : List Char :=
    match r1 with
    | '.' :: u => u.dropWhile isDigit
    | _ => r1
  if intPart = [] ∧ fracPart = [] then
    none
  else
    let num : ℕ := digitsToNat intPart * 10 ^ fracPart.length + digitsToNat fracPart
    let den : ℕ := 10 ^ fracPart.length
    match r2 with
    | [] => some (num, den)
    | e :: u =>
      if e = 'e' ∨ e = 'E' then
        let expOf : List Char → Option ℕ := fun v =>
          let ds := v.takeWhile isDigit
          if ds = [] ∨ v.dropWhile isDigit ≠ [] then none
          else some (digitsToNat ds)
        match u with
        | '-' :: v => (expOf v).map (fun ex => (num, den * 10 ^ ex))
        | '+' :: v => (expOf v).map (fun ex => (num * 10 ^ ex, den))
        | v => (expOf v).map (fun ex => (num * 10 ^ ex, den))
      else none

/-- JS `Number(str)`: trims whitespace, the empty string is 0, otherwise
an optional sign followed by a decimal literal; anything else is NaN.
(Hex/`Infinity` forms are not modelled; no decoder input uses them and
they would be NaN-like for every claim below.) -/
def jsNumber (s : List Char) : JsNum :=
  let t := jsTrim s
  match t with
  | [] => some 0
  | '-' :: u => (jsNumParts u).map (fun p => mkRat (-(p.1 : ℤ)) p.2)
  | '+' :: u => (jsNumParts u).map (fun p => mkRat (p.1 : ℤ) p.2)
  | u => (jsNumParts u).map (fun p => mkRat (p.1 : ℤ) p.2)

/-- Reading `arr[i]` from a JS number array: out-of-range reads give
`undefined`, which every use site here treats as NaN. -/
def jsGet (fs : List JsNum) (i : Nat) : JsNum :=
  match fs.get? i with
  | some v => v
  | none => none

/-- NaN-propagating division by a positive integer constant (the only
divisions the decoders perform are by 255).  Built with `mkRat` so that
concrete inputs evaluate; `jsDiv_some` below shows it is division. -/
def jsDiv (a : JsNum) (d : ℕ) : JsNum :=
  match a with
  | some q => some (mkRat q.num (q.den * d))
  | none => none

/-- One step of splitting a nonempty, already-trimmed string at runs of
whitespace, with explicit fuel (the fuel passed by `jsFields` always
exceeds the list length, and every recursive call strictly shrinks the
list, so the fuel never runs out). -/
def wordsOfF : Nat → List Char → List (List Char)
  | 0, _ => []
  | _ + 1, [] => []
  | fuel + 1, c :: rest =>
    if isJsWs c then wordsOfF fuel rest
    else (c :: rest.takeWhile (fun d => !isJsWs d)) ::
      wordsOfF fuel (rest.dropWhile (fun d => !isJsWs d))

/-- `line.trim().split(/\s+/).map(Number)`: the empty trimmed string
splits as `[""]`, and `Number("")` is 0; otherwise the whitespace-run
separated tokens are each parsed with `Number`. -/
def jsFields (l : List Char) : List JsNum :=
  let t := jsTrim l
  match t with
  | [] => [some 0]
  | _ => (wordsOfF (t.length + 1) t).map jsNumber

def elemVertexTok : List Char := ("element vertex").toList

def elemFaceTok : List Char := ("element face").toList

def propertyTok : List Char := ("property").toList

def endHeaderTok : List Char := ("end_header").toList

def redTok : List Char := ("red").toList

/-- The PLY header loop of `parsePlyAscii`: walk the lines, tracking the
most recent `element vertex`/`element face` counts (parsed with
`parseInt`, hence possibly NaN) and every `property` line, until the
first line whose trimmed text is exactly `end_header` — its index is the
fourth component, `none` when the loop exhausts the file. -/
def headerScan :
    List (List Char) → Nat → Option ℤ → Option ℤ → List (List Char) →
      Option ℤ × Option ℤ × List (List Char) × Option Nat
  | [], _, vc, fc, props => (vc, fc, props, none)
  | l :: rest, i, vc, fc, props =>
    let t := jsTrim l
    if leadsWith elemVertexTok t then
      headerScan rest (i + 1) (jsParseIntAt (splitOn ' ' t) 2) fc props
    else if leadsWith elemFaceTok t then
      headerScan rest (i + 1) vc (jsParseIntAt (splitOn ' ' t) 2) props
    else if leadsWith propertyTok t then
      headerScan rest (i + 1) vc fc (props ++ [t])
    else if t = endHeaderTok then
      (vc, fc, props, some i)
    else
      headerScan rest (i + 1) vc fc props

/-- Header information of a PLY text: declared vertex count, declared
face count, collected property lines, index of the `end_header` line. -/
def plyHeaderOf (text : List Char) :
    Option ℤ × Option ℤ × List (List Char) × Option Nat :=
  headerScan (splitOn '\n' text) 0 (some 0) (some 0) []

/-- `vertexProperties.some(p => p.includes('red'))`. -/
def hasColorsOf (text : List Char) : Bool :=
  (plyHeaderOf text).2.2.1.any (fun p => occursIn redTok p)

/-- `lines.slice(i + 1, i + 1 + vertexCount)` (empty when `end_header`
was never found). -/
def vLinesOf (text : List Char) : List (List Char) :=
  let lines := splitOn '\n' text
  let h := plyHeaderOf text
  match h.2.2.2 with
  | none => []
  | some i => jsSliceO lines (some ((i : ℤ) + 1)) (jsAddO (some ((i : ℤ) + 1)) h.1)

/-- `lines.slice(i + 1 + vertexCount, i + 1 + vertexCount + faceCount)`
(empty when `end_header` was never found). -/
def fLinesOf (text : List Char) : List (List Char) :=
  let lines := splitOn '\n' text
  let h := plyHeaderOf text
  match h.2.2.2 with
  | none => []
  | some i =>
    let s := jsAddO (some ((i : ℤ) + 1)) h.1
    jsSliceO lines s (jsAddO s h.2.1)

/-- Per vertex row: `positions.push(parts[0], parts[1], parts[2])`. -/
def vertexPos (l : List Char) : List JsNum :=
  let fs := jsFields l
  [jsGet fs 0, jsGet fs 1, jsGet fs 2]

/-- Per vertex row: `if (hasColors && parts.length >= 6)` push the three
channels divided by 255. -/
def vertexCol (hasColors : Bool) (l : List Char) : List JsNum :=
  let fs := jsFields l
  if hasColors then
    if 6 ≤ fs.length then
      [jsDiv (jsGet fs 3) 255, jsDiv (jsGet fs 4) 255, jsDiv (jsGet fs 5) 255]
    else []
  else []

/-- Per face row: `if (parts[0] === 3)` push `parts[1..3]` (no bounds
check of any kind). -/
def faceIdx (l : List Char) : List JsNum :=
  let fs := jsFields l
  if jsGet fs 0 = some 3 then [jsGet fs 1, jsGet fs 2, jsGet fs 3] else []

/-- The geometry data produced by `parsePlyAscii`: the position, color
and index arrays handed to the BufferGeometry (the color attribute is
attached exactly when `hasColors`; the index array is always attached;
no normal attribute is ever produced — the caller computes vertex
normals), plus the returned `vCount`/`fCount` counters. -/
structure PlyOut where
  positions : List JsNum
  colors : List JsNum
  indices : List JsNum
  hasColors : Bool
  vCount : Option ℤ
  fCount : Option ℤ
  deriving DecidableEq

/-- Shallow embedding of `parsePlyAscii` (part_000, lines 257-323).  The
function is total: the source has no throw and no failure path, so every
input yields a `PlyOut`. -/
def parsePlyAscii (text : List Char) : PlyOut :=
  { positions := mapCat (vLinesOf text) vertexPos
  , colors := mapCat (vLinesOf text) (vertexCol (hasColorsOf text))
  , indices := mapCat (fLinesOf text) faceIdx
  , hasColors := hasColorsOf text
  , vCount := (plyHeaderOf text).1
  , fCount := (plyHeaderOf text).2.1 }

/-- The only runtime failure the STL path can produce: the `RangeError`
thrown by a `DataView` access beyond the buffer (the source defines no
typed error of its own). -/
inductive JsErr where
  | rangeError
  deriving DecidableEq

/-- `DataView.getUint32(off, true)` (also standing in for
`getFloat32(off, true)`, whose IEEE interpretation of the same four bytes
is not modelled): the little-endian 32-bit word at `off`, or a
`RangeError` (`none`) when any of the four bytes is beyond the buffer. -/
def readU32 (buf : List Nat) (off : Nat) : Option Nat :=
  match buf[off]?, buf[off + 1]?, buf[off + 2]?, buf[off + 3]? with
  | some b0, some b1, some b2, some b3 =>
    some (b0 + 256 * b1 + 65536 * b2 + 16777216 * b3)
  | _, _, _, _ => none

/-- Three consecutive 32-bit little-endian words (one vector). -/
def readV3 (buf : List Nat) (off : Nat) : Option (Nat × Nat × Nat) :=
  match readU32 buf off, readU32 buf (off + 4), readU32 buf (off + 8) with
  | some x, some y, some z => some (x, y, z)
  | _, _, _ => none

def v3L : Nat × Nat × Nat → List Nat
  | (x, y, z) => [x, y, z]

/-- One 50-byte binary STL record at `off`: the face normal then the
three vertices (the trailing 2 attribute bytes are skipped, never read). -/
def stlRecord (buf : List Nat) (off : Nat) :
    Option ((Nat × Nat × Nat) × (Nat × Nat × Nat) × (Nat × Nat × Nat) × (Nat × Nat × Nat)) :=
  match readV3 buf off, readV3 buf (off + 12), readV3 buf (off + 24), readV3 buf (off + 36) with
  | some n, some a, some b, some c => some (n, a, b, c)
  | _, _, _, _ => none

/-- The record loop of `parseBinary`: for each remaining record read the
normal and the three vertices, pushing the nine vertex words onto
`positions` and the normal three times onto `normals`; any out-of-range
read aborts the whole decode with the `RangeError`. -/
def goBin (buf : List Nat) : Nat → Nat → Except JsErr (List Nat × List Nat)
  | 0, _ => .ok ([], [])
  | c + 1, off =>
    match stlRecord buf off with
    | none => .error .rangeError
    | some (n, a, b, d) =>
      match goBin buf c (off + 50) with
      | .error e => .error e
      | .ok (ps, ns) =>
        .ok (v3L a ++ v3L b ++ v3L d ++ ps, (v3L n ++ v3L n ++ v3L n) ++ ns)

/-- The geometry produced by the binary STL decoder: position and normal
words; no index and no color attribute is ever attached. -/
structure BinMesh where
  triangleCount : Nat
  positions : List Nat
  normals : List Nat
  indices : Option (List Nat)
  colors : Option (List Nat)
  deriving DecidableEq

/-- Shallow embedding of `parseBinary` (StlViewer.tsx, lines 326-363):
read the declared 32-bit triangle count at offset 80, then the records
from offset 84, 50 bytes apart.  There is no length validation in the
source; a truncated buffer surfaces as the `DataView` range error. -/
def parseBinary (buf : List Nat) : Except JsErr BinMesh :=
  match readU32 buf 80 with
  | none => .error .rangeError
  | some faces =>
    match goBin buf faces 84 with
    | .error e => .error e
    | .ok (ps, ns) =>
      .ok { triangleCount := faces, positions := ps, normals := ns
          , indices := none, colors := none }

def solidTok : List Char := ("solid").toList

def binaryTok : List Char := ("binary").toList

/-- The TextDecoder step, modelled one char per byte. -/
def decodeBytes (buf : List Nat) : List Char :=
  buf.map (fun b => Char.ofNat b)

/-- The sniffing rule of `parseSTL`:
`textDecoder.decode(buffer.slice(0, 80)).trim()` starts with `solid` and
does not contain `binary`.  `ArrayBuffer.slice(0, 80)` clamps, so a short
buffer contributes all its bytes. -/
def sniffIsAscii (buf : List Nat) : Bool :=
  let header := jsTrim (decodeBytes (buf.take 80))
  leadsWith solidTok header && !(occursIn binaryTok header)

inductive StlFormat where
  | ascii
  | binary
  deriving DecidableEq

/-- The ASCII/binary classification of an STL buffer. -/
def sniffFormat (buf : List Nat) : StlFormat :=
  if sniffIsAscii buf then .ascii else .binary

/-
The ASCII STL decoder scans the text with the regex

  facet\s+normal\s+N\s+N\s+N[\s\S]*?vertex\s+N\s+N\s+N
                           [\s\S]*?vertex\s+N\s+N\s+N
                           [\s\S]*?vertex\s+N\s+N\s+N    (global)

where N is the capture `([eE\d\.\+\-]+)`.  The functions below compile
that regex by hand.  The compilation is exact because the pattern leaves
the engine no real choices:
  - the numeric class and `\s` are disjoint, and neither contains the
    first letter of the literals `facet`/`normal`/`vertex`, so every
    greedy `\s+`/class `+` is a maximal munch with no useful backtracking;
  - each lazy `[\s\S]*?` is immediately followed by the literal `vertex`,
    so it extends to the nearest occurrence of `vertex` whose continuation
    parses, tried left to right — which is exactly `searchVertex`;
  - a later choice can never rescue an earlier failed one: moving a
    choice point right only shrinks the region searched by the choice
    points after it, so the first failure is final and the sequential
    scan below is complete.
The global `exec` loop resumes at the end of each match (every match is
nonempty, as it contains `facet`), which `scanFacetsF` mirrors.
-/

def isNumChar (c : Char) : Bool :=
  isDigit c || c = 'e' || c = 'E' || c = '.' || c = '+' || c = '-'

/-- Match a literal token at the head, returning the rest. -/
def stripTok : List Char → List Char → Option (List Char)
  | [], s => some s
  | _ :: _, [] => none
  | t :: ts, c :: cs => if t = c then stripTok ts cs else none

/-- `\s+`: at least one whitespace char, maximal munch. -/
def ws1 : List Char → Option (List Char)
  | [] => none
  | c :: rest => if isJsWs c then some (rest.dropWhile isJsWs) else none

/-- The capture `([eE\d\.\+\-]+)`: a maximal nonempty run of the numeric
class, returned together with the rest. -/
def num1 (s : List Char) : Option (List Char × List Char) :=
  let tok := s.takeWhile isNumChar
  if tok = [] then none else some (tok, s.dropWhile isNumChar)

/-- `\s+` then a numeric capture. -/
def wsNum (s : List Char) : Option (List Char × List Char) :=
  match ws1 s with
  | none => none
  | some r => num1 r

/-- Three whitespace-separated numeric captures (the payload of a
`vertex` keyword and also of `normal`). -/
def numTriple (s : List Char) :
    Option ((List Char × List Char × List Char) × List Char) :=
  match wsNum s with
  | none => none
  | some (a, s1) =>
    match wsNum s1 with
    | none => none
    | some (b, s2) =>
      match wsNum s2 with
      | none => none
      | some (c, s3) => some ((a, b, c), s3)

def vertexTok : List Char := ("vertex").toList

def facetTok : List Char := ("facet").toList

def normalTok : List Char := ("normal").toList

/-- `[\s\S]*?vertex\s+N\s+N\s+N`: the earliest occurrence of `vertex`
followed by a parsable triple, scanning left to right. -/
def searchVertex : List Char → Option ((List Char × List Char × List Char) × List Char)
  | [] => none
  | c :: rest =>
    match stripTok vertexTok (c :: rest) with
    | some r =>
      match numTriple r with
      | some p => some p
      | none => searchVertex rest
    | none => searchVertex rest

/-- One full regex match attempted at the very start of `s`: the captured
normal triple, the three captured vertex triples, and the rest of the
text after the match. -/
def matchFacetAt (s : List Char) :
    Option (((List Char × List Char × List Char) ×
             (List Char × List Char × List Char) ×
             (List Char × List Char × List Char) ×
             (List Char × List Char × List Char)) × List Char) :=
  match stripTok facetTok s with
  | none => none
  | some s1 =>
    match ws1 s1 with
    | none => none
    | some s2 =>
      match stripTok normalTok s2 with
      | none => none
      | some s3 =>
        match numTriple s3 with
        | none => none
        | some (n, s4) =>
          match searchVertex s4 with
          | none => none
          | some (w1, s5) =>
            match searchVertex s5 with
            | none => none
            | some (w2, s6) =>
              match searchVertex s6 with
              | none => none
              | some (w3, s7) => some ((n, w1, w2, w3), s7)

/-- The global `exec` loop: attempt a match at every position, in order;
on success continue after the match.  Fueled; `scanFacets` passes fuel
exceeding the text length, and every recursive call strictly shrinks the
text, so the fuel never runs out (`scanFacetsF_fuel` below). -/
def scanFacetsF : Nat → List Char →
    List ((List Char × List Char × List Char) ×
          (List Char × List Char × List Char) ×
          (List Char × List Char × List Char) ×
          (List Char × List Char × List Char))
  | 0, _ => []
  | _ + 1, [] => []
  | fuel + 1, c :: rest =>
    match matchFacetAt (c :: rest) with
    | some (m, after) => m :: scanFacetsF fuel after
    | none => scanFacetsF fuel rest

/-- All matches of the facet regex over the text, in order. -/
def scanFacets (t : List Char) :
    List ((List Char × List Char × List Char) ×
          (List Char × List Char × List Char) ×
          (List Char × List Char × List Char) ×
          (List Char × List Char × List Char)) :=
  scanFacetsF (t.length + 1) t

/-- `map(Number)` over a captured triple. -/
def numsOf : List Char × List Char × List Char → List JsNum
  | (a, b, c) => [jsNumber a, jsNumber b, jsNumber c]

/-- The geometry produced by the ASCII STL decoder: one position triple
per captured vertex, the facet normal repeated for each of its three
vertices; no index and no color attribute is ever attached. -/
structure AsciiMesh where
  triangleCount : Nat
  positions : List JsNum
  normals : List JsNum
  indices : Option (List JsNum)
  colors : Option (List JsNum)
  deriving DecidableEq

/-- Shallow embedding of `parseASCII` (StlViewer.tsx, lines 365-395).
Total: the source has no throw; text not matching the pattern is skipped
by the scan itself. -/
def parseASCII (t : List Char) : AsciiMesh :=
  let ms := scanFacets t
  { triangleCount := ms.length
  , positions := mapCat ms (fun m => numsOf m.2.1 ++ numsOf m.2.2.1 ++ numsOf m.2.2.2)
  , normals := mapCat ms (fun m => numsOf m.1 ++ numsOf m.1 ++ numsOf m.1)
  , indices := none
  , colors := none }

/-- The geometry payload of `parseSTL`, one variant per decoder. -/
inductive StlGeom where
  | asciiG (r : AsciiMesh)
  | binG (r : BinMesh)
  deriving DecidableEq

structure StlOut where
  geom : StlGeom
  format : StlFormat
  triangleCount : Nat
  deriving DecidableEq

/-- Shallow embedding of `parseSTL` (StlViewer.tsx, lines 298-324): sniff
the first 80 bytes, then dispatch.  There is no buffer-size check of any
kind before (or after) the classification. -/
def parseSTL (buf : List Nat) : Except JsErr StlOut :=
  if sniffIsAscii buf then
    let r := parseASCII (decodeBytes buf)
    .ok { geom := .asciiG r, format := .ascii, triangleCount := r.triangleCount }
  else
    match parseBinary buf with
    | .error e => .error e
    | .ok r => .ok { geom := .binG r, format := .binary, triangleCount := r.triangleCount }

/-! ### Derived definitions and concrete inputs used by the theorems -/

/-- A face row contributes indices exactly when its first field is the
number 3. -/
def acceptedFaceRow (l : List Char) : Bool :=
  decide (jsGet (jsFields l) 0 = some 3)

/-- The position words contributed by record `i` (offsets relative to a
record base `off`, 50 bytes apart): the three vertices of the record. -/
def recPosAt (buf : List Nat) (off i : Nat) : List Nat :=
  match stlRecord buf (off + 50 * i) with
  | some (_, a, b, c) => v3L a ++ v3L b ++ v3L c
  | none => []

/-- The normal words contributed by record `i`: its face normal repeated
once per vertex. -/
def recNrmAt (buf : List Nat) (off i : Nat) : List Nat :=
  match stlRecord buf (off + 50 * i) with
  | some (n, _, _, _) => v3L n ++ v3L n ++ v3L n
  | none => []

/-- A JS number is a finite value within `[lo, hi]` (false for NaN). -/
def inRange (a : JsNum) (lo hi : ℚ) : Prop :=
  match a with
  | some q => lo ≤ q ∧ q ≤ hi
  | none => False

instance : (a : JsNum) → (lo hi : ℚ) → Decidable (inRange a lo hi)
  | some _, _, _ => inferInstanceAs (Decidable (_ ∧ _))
  | none, _, _ => inferInstanceAs (Decidable False)

def cexPlyNoHeader : List Char := ("element vertex 2\nfoo 1 2").toList

def cexPlyBigIndex : List Char :=
  ("element vertex 1\nelement face 1\nend_header\n0 0 0\n3 0 0 5").toList

def cexPlyTruncated : List Char := ("element vertex 5\nend_header\n1 2 3\n4 5 6").toList

def cexPlyColorShort : List Char :=
  ("element vertex 2\nproperty uchar red\nend_header\n0 0 0 255 0 0\n1 1 1").toList

def cexPlyColorFull : List Char :=
  ("element vertex 2\nproperty uchar red\nend_header\n0 0 0 255 0 51\n1 1 1 10 20 30").toList

def cexPlyQuad : List Char :=
  ("element vertex 4\nelement face 1\nend_header\n0 0 0\n0 0 1\n0 1 0\n1 0 0\n4 0 1 2 3").toList

def cexStl132 : List Nat := List.replicate 80 0 ++ [1, 0, 0, 0] ++ List.replicate 48 0

def binMesh132 : BinMesh :=
  { triangleCount := 1, positions := List.replicate 9 0
  , normals := List.replicate 9 0, indices := none, colors := none }

def cexStlTrunc : List Nat := List.replicate 80 0 ++ [10, 0, 0, 0] ++ List.replicate 100 0

def cexStlEmpty : List Nat := List.replicate 84 0

def cexStlShort : List Nat := ("solid x").toList.map Char.toNat

def cexAsciiNone : List Char := ("solid nothing here\nendsolid").toList

/-! ### Generic helper lemmas -/

theorem dropWhile_len_le (p : α → Bool) (l : List α) :
    (l.dropWhile p).length ≤ l.length := by
  induction l with
  | nil => simp [List.dropWhile]
  | cons a rest ih =>
    simp only [List.dropWhile]
    split
    · exact Nat.le_trans ih (Nat.le_succ _)
    · exact Nat.le_refl _

theorem mapCat_length_const (l : List α) (f : α → List β) (k : Nat)
    (h : ∀ a ∈ l, (f a).length = k) :
    (mapCat l f).length = k * l.length := by
  induction l with
  | nil => simp [mapCat]
  | cons a rest ih =>
    have ha : (f a).length = k := h a (by simp)
    have hr := ih (fun x hx => h x (by simp [hx]))
    simp only [mapCat, List.length_append, ha, hr, List.length_cons]
    ring

theorem mem_mapCat {l : List α} {f : α → List β} {b : β} :
    b ∈ mapCat l f ↔ ∃ a ∈ l, b ∈ f a := by
  induction l with
  | nil => simp [mapCat]
  | cons a rest ih =>
    simp only [mapCat, List.mem_append, ih, List.mem_cons]
    constructor
    · rintro (hb | ⟨x, hx, hbx⟩)
      · exact ⟨a, Or.inl rfl, hb⟩
      · exact ⟨x, Or.inr hx, hbx⟩
    · rintro ⟨x, hx | hx, hbx⟩
      · subst hx; exact Or.inl hbx
      · exact Or.inr ⟨x, hx, hbx⟩

theorem mapCat_map (l : List α) (g : α → γ) (f : γ → List β) :
    mapCat (l.map g) f = mapCat l (fun a => f (g a)) := by
  induction l with
  | nil => simp [mapCat]
  | cons a rest ih => simp [mapCat, ih]

theorem mapCat_faceIdx_length (L : List (List Char)) :
    (mapCat L faceIdx).length = 3 * L.countP acceptedFaceRow := by
  induction L with
  | nil => simp [mapCat]
  | cons l rest ih =>
    simp only [mapCat, List.length_append, ih, List.countP_cons, faceIdx, acceptedFaceRow]
    split
    · simp only [List.length_cons, List.length_nil]
      rename_i hcond
      simp [hcond]
      ring
    · rename_i hcond
      simp [hcond]

/-! ### jsSlice arithmetic -/

theorem jsSlice_length_nonneg (l : List α) (i : Nat) (N : ℤ) (hN : 0 ≤ N) :
    (jsSlice l (i : ℤ) ((i : ℤ) + N)).length =
      min N.toNat (l.length - i) := by
  simp only [jsSlice, List.length_take, List.length_drop]
  have h1 : ¬((i : ℤ) < 0) := by omega
  have h2 : ¬((i : ℤ) + N < 0) := by omega
  simp only [h1, h2, if_false, min_def]
  split_ifs <;> omega

theorem jsSlice_end_zero (l : List α) (s : ℤ) : jsSlice l s 0 = [] := by
  simp only [jsSlice]
  have h0 : ¬((0 : ℤ) < 0) := by omega
  have : (min (0 : ℤ) (l.length : ℤ) -
      (if s < 0 then max ((l.length : ℤ) + s) 0 else min s (l.length : ℤ))).toNat = 0 := by
    split_ifs <;> omega
  simp only [h0, if_false, this, List.take_zero]

/-! ### PLY header behaviour -/

theorem headerScan_none (lines : List (List Char)) (i : Nat) (vc fc : Option ℤ)
    (props : List (List Char)) (h : ∀ l ∈ lines, jsTrim l ≠ endHeaderTok) :
    (headerScan lines i vc fc props).2.2.2 = none := by
  induction lines generalizing i vc fc props with
  | nil => simp [headerScan]
  | cons l rest ih =>
    have hl : jsTrim l ≠ endHeaderTok := h l (by simp)
    have hrest : ∀ x ∈ rest, jsTrim x ≠ endHeaderTok := fun x hx => h x (by simp [hx])
    simp only [headerScan]
    -- split_ifs discharges the end_header branch itself using hl
    split_ifs with h1 h2 h3
    · exact ih _ _ _ _ hrest
    · exact ih _ _ _ _ hrest
    · exact ih _ _ _ _ hrest
    · exact ih _ _ _ _ hrest

/-- Claim C1 (amended): a PLY text without `end_header`, or with an
`element vertex`/`element face` line missing its count token, does NOT
fail — `parsePlyAscii` has no error path at all (it is a total function
in this embedding because the source never throws).  Without `end_header`
the returned mesh has empty positions, colors and indices; a missing
vertex-count token (NaN count) makes the vertex slice empty, and a
missing face-count token makes the face slice empty. -/
theorem ply_missing_header_silent (text : List Char) :
    ((∀ l ∈ splitOn '\n' text, jsTrim l ≠ endHeaderTok) →
      (parsePlyAscii text).positions = [] ∧ (parsePlyAscii text).indices = [] ∧
        (parsePlyAscii text).colors = []) ∧
    (∀ i fc props, plyHeaderOf text = (none, fc, props, some i) →
      (parsePlyAscii text).positions = [] ∧ (parsePlyAscii text).colors = []) ∧
    (∀ i vc props, plyHeaderOf text = (vc, none, props, some i) →
      (parsePlyAscii text).indices = []) := by
  refine ⟨?_, ?_, ?_⟩
  · intro h
    have hnone : (plyHeaderOf text).2.2.2 = none :=
      headerScan_none (splitOn '\n' text) 0 (some 0) (some 0) [] h
    have hv : vLinesOf text = [] := by
      simp only [vLinesOf]
      rw [hnone]
    have hf : fLinesOf text = [] := by
      simp only [fLinesOf]
      rw [hnone]
    simp [parsePlyAscii, hv, hf, mapCat]
  · intro i fc props h
    have hv : vLinesOf text = [] := by
      simp only [vLinesOf, h, jsAddO, jsSliceO, Option.getD]
      exact jsSlice_end_zero _ _
    simp [parsePlyAscii, hv, mapCat]
  · intro i vc props h
    have hf : fLinesOf text = [] := by
      simp only [fLinesOf, h, jsAddO, jsSliceO]
      rcases vc with _ | v
      · exact jsSlice_end_zero _ _
      · exact jsSlice_end_zero _ _
    simp [parsePlyAscii, hf, mapCat]

/-- Claim C1 counterexample: a PLY text in which `end_header` never
occurs decodes successfully to an (empty) mesh; no `HeaderError` exists
anywhere in the code. -/
theorem ply_missing_header_returns_mesh :
    parsePlyAscii cexPlyNoHeader =
      { positions := [], colors := [], indices := [], hasColors := false
      , vCount := some 2, fCount := some 0 } := by
  decide

/-- Claim C1 witness for the amended statement, at a concrete input. -/
theorem ply_missing_header_silent_case :
    (parsePlyAscii cexPlyNoHeader).positions = [] ∧
      (parsePlyAscii cexPlyNoHeader).indices = [] := by
  have h := (ply_missing_header_silent cexPlyNoHeader).1 (by decide)
  exact ⟨h.1, h.2.1⟩

/-- Claim C9 (amended): `indices.length` is always divisible by 3 (three
entries per accepted triangular face row), but the decoder performs no
range check, so an index value need not be below the declared vertex
count. -/
theorem ply_indices_multiple_of_three (text : List Char) :
    (parsePlyAscii text).indices.length % 3 = 0 := by
  have h : (parsePlyAscii text).indices.length =
      3 * (fLinesOf text).countP acceptedFaceRow := by
    simp [parsePlyAscii, mapCat_faceIdx_length]
  simp [h]

/-- Claim C9 counterexample: the face row `3 0 0 5` is accepted although
the header declares only one vertex; the decoder appends the index 5,
which is not a valid zero-based index below `positions.length / 3 = 1`. -/
theorem ply_indices_out_of_range :
    (parsePlyAscii cexPlyBigIndex).indices = [some 0, some 0, some 5] ∧
      (parsePlyAscii cexPlyBigIndex).vCount = some 1 ∧
      (parsePlyAscii cexPlyBigIndex).positions.length = 3 ∧
      ¬((5 : ℚ) < 1) := by
  refine ⟨by decide, by decide, by decide, by norm_num⟩

/-- Claim C10 (confirmed): when `end_header` is found at line index `i`
with a declared nonnegative vertex count `N`, the decoder silently
processes only the lines actually present after the header:
`positions.length` is 3 times `min N <available lines>`, which is less
than `3 * N` whenever fewer than `N` lines follow.  No error is possible
(`parsePlyAscii` is total). -/
theorem ply_truncated_vertex_rows (text : List Char) (i : Nat) (N : ℤ)
    (fc : Option ℤ) (props : List (List Char)) (hN : 0 ≤ N)
    (h : plyHeaderOf text = (some N, fc, props, some i)) :
    (parsePlyAscii text).positions.length =
      3 * min N.toNat ((splitOn '\n' text).length - (i + 1)) := by
  have hv : vLinesOf text =
      jsSlice (splitOn '\n' text) ((i + 1 : Nat) : ℤ) (((i + 1 : Nat) : ℤ) + N) := by
    simp only [vLinesOf, h, jsSliceO, jsAddO, Option.getD]
    norm_num
  have hlen := jsSlice_length_nonneg (splitOn '\n' text) (i + 1) N hN
  have h3 : ∀ l ∈ vLinesOf text, (vertexPos l).length = 3 := by
    intro l _
    simp [vertexPos]
  have hp : (parsePlyAscii text).positions.length = 3 * (vLinesOf text).length := by
    simp [parsePlyAscii, mapCat_length_const _ _ 3 h3]
  rw [hp, hv, hlen]

/-- Claim C10 witness: 5 declared vertices but only 2 vertex lines after
the header yield 6 position entries, with no error. -/
theorem ply_truncated_vertex_rows_case :
    (parsePlyAscii cexPlyTruncated).positions.length =
      3 * min ((5 : ℤ)).toNat ((splitOn '\n' cexPlyTruncated).length - (1 + 1)) := by
  exact ply_truncated_vertex_rows cexPlyTruncated 1 5 (some 0)
    [] (by norm_num) (by decide)

/-! ### Binary STL decoding bounds -/

theorem readU32_none_of (buf : List Nat) (off : Nat) (h : buf.length < off + 4) :
    readU32 buf off = none := by
  have h3 : buf[off + 3]? = none := List.getElem?_eq_none (by omega)
  rcases h0 : buf[off]? with _ | b0 <;>
    rcases h1 : buf[off + 1]? with _ | b1 <;>
      rcases h2 : buf[off + 2]? with _ | b2 <;>
        simp [readU32, h0, h1, h2, h3]

theorem readU32_some_of (buf : List Nat) (off : Nat) (h : off + 4 ≤ buf.length) :
    ∃ w, readU32 buf off = some w := by
  have e0 : off < buf.length := by omega
  have e1 : off + 1 < buf.length := by omega
  have e2 : off + 2 < buf.length := by omega
  have e3 : off + 3 < buf.length := by omega
  unfold readU32
  rw [List.getElem?_eq_getElem e0, List.getElem?_eq_getElem e1,
    List.getElem?_eq_getElem e2, List.getElem?_eq_getElem e3]
  exact ⟨_, rfl⟩

theorem readV3_some_of (buf : List Nat) (off : Nat) (h : off + 12 ≤ buf.length) :
    ∃ v, readV3 buf off = some v := by
  obtain ⟨x, hx⟩ := readU32_some_of buf off (by omega)
  obtain ⟨y, hy⟩ := readU32_some_of buf (off + 4) (by omega)
  obtain ⟨z, hz⟩ := readU32_some_of buf (off + 8) (by omega)
  exact ⟨(x, y, z), by simp [readV3, hx, hy, hz]⟩

theorem readV3_none_of (buf : List Nat) (off : Nat) (h : buf.length < off + 12) :
    readV3 buf off = none := by
  have h2 : readU32 buf (off + 8) = none := readU32_none_of buf (off + 8) (by omega)
  rcases h0 : readU32 buf off with _ | x <;>
    rcases h1 : readU32 buf (off + 4) with _ | y <;>
      simp [readV3, h0, h1, h2]

theorem stlRecord_some_of (buf : List Nat) (off : Nat) (h : off + 48 ≤ buf.length) :
    ∃ v, stlRecord buf off = some v := by
  obtain ⟨n, hn⟩ := readV3_some_of buf off (by omega)
  obtain ⟨a, ha⟩ := readV3_some_of buf (off + 12) (by omega)
  obtain ⟨b, hb⟩ := readV3_some_of buf (off + 24) (by omega)
  obtain ⟨c, hc⟩ := readV3_some_of buf (off + 36) (by omega)
  exact ⟨(n, a, b, c), by simp [stlRecord, hn, ha, hb, hc]⟩

theorem stlRecord_lower_bound (buf : List Nat) (off : Nat) (v)
    (h : stlRecord buf off = some v) : off + 48 ≤ buf.length := by
  by_contra hh
  push_neg at hh
  have h3 : readV3 buf (off + 36) = none := readV3_none_of buf (off + 36) (by omega)
  rcases h0 : readV3 buf off with _ | n <;>
    rcases h1 : readV3 buf (off + 12) with _ | a <;>
      rcases h2 : readV3 buf (off + 24) with _ | b <;>
        simp [stlRecord, h0, h1, h2, h3] at h

theorem goBin_ok_lengths (buf : List Nat) :
    ∀ (c off : Nat) (ps ns : List Nat), goBin buf c off = .ok (ps, ns) →
      ps.length = 9 * c ∧ ns.length = 9 * c := by
  intro c
  induction c with
  | zero =>
    intro off ps ns h
    simp only [goBin, Except.ok.injEq, Prod.mk.injEq] at h
    obtain ⟨h1, h2⟩ := h
    simp [← h1, ← h2]
  | succ c ih =>
    intro off ps ns h
    simp only [goBin] at h
    rcases hr : stlRecord buf off with _ | v
    · rw [hr] at h; cases h
    · rw [hr] at h
      obtain ⟨n, a, b, d⟩ := v
      rcases hg : goBin buf c (off + 50) with e | pr
      · rw [hg] at h; cases h
      · rw [hg] at h
        obtain ⟨ps', ns'⟩ := pr
        simp only [Except.ok.injEq, Prod.mk.injEq] at h
        obtain ⟨h1, h2⟩ := h
        have hl := ih (off + 50) ps' ns' (by rw [hg])
        simp only [← h1, ← h2, List.length_append, v3L]
        simp [v3L]
        omega

theorem goBin_error_iff (buf : List Nat) :
    ∀ (c off : Nat), goBin buf c off = .error .rangeError ↔
      1 ≤ c ∧ buf.length + 2 < off + 50 * c := by
  intro c
  induction c with
  | zero =>
    intro off
    simp [goBin]
  | succ c ih =>
    intro off
    rcases hr : stlRecord buf off with _ | v
    · have hlt : buf.length < off + 48 := by
        by_contra hh
        push_neg at hh
        obtain ⟨v, hv⟩ := stlRecord_some_of buf off hh
        rw [hv] at hr
        cases hr
      simp only [goBin, hr]
      constructor
      · intro _; omega
      · intro _; trivial
    · have hge : off + 48 ≤ buf.length := stlRecord_lower_bound buf off v hr
      obtain ⟨n, a, b, d⟩ := v
      rcases hg : goBin buf c (off + 50) with e | pr
      · cases e
        have hc := (ih (off + 50)).1 (by rw [hg])
        simp only [goBin, hr, hg]
        constructor
        · intro _; omega
        · intro _; trivial
      · have hnc : ¬(1 ≤ c ∧ buf.length + 2 < off + 50 + 50 * c) := by
          intro hcc
          have := (ih (off + 50)).2 hcc
          rw [hg] at this
          cases this
        obtain ⟨ps', ns'⟩ := pr
        simp only [goBin, hr, hg]
        constructor
        · intro hh; cases hh
        · intro hcc
          exfalso
          rcases Nat.eq_zero_or_pos c with hc0 | hc1
          · subst hc0; omega
          · exact hnc ⟨hc1, by omega⟩

/-- Claim C2 (amended): the code contains no typed `FormatError`; a
truncated binary STL buffer fails with the untyped `DataView`
`RangeError`, and the truncation threshold is `50*N + 82` bytes, not the
`84 + 50*N` of the claim — the final 2 attribute bytes of the last record
are skipped without ever being read, so a buffer missing only them still
decodes. -/
theorem stl_binary_truncation_range_error (buf : List Nat) :
    (buf.length < 84 → parseBinary buf = .error .rangeError) ∧
    (∀ N, readU32 buf 80 = some N →
      (parseBinary buf = .error .rangeError ↔ 1 ≤ N ∧ buf.length < 50 * N + 82)) := by
  constructor
  · intro h
    have : readU32 buf 80 = none := readU32_none_of buf 80 (by omega)
    simp [parseBinary, this]
  · intro N hN
    simp only [parseBinary, hN]
    rcases hg : goBin buf N 84 with e | pr
    · cases e
      have := (goBin_error_iff buf N 84).1 (by rw [hg])
      constructor
      · intro _; omega
      · intro _; rfl
    · obtain ⟨ps, ns⟩ := pr
      have hne : ¬(1 ≤ N ∧ buf.length + 2 < 84 + 50 * N) := by
        intro hcc
        have := (goBin_error_iff buf N 84).2 hcc
        rw [hg] at this
        cases this
      constructor
      · intro hh; cases hh
      · intro hcc
        exfalso
        exact hne ⟨hcc.1, by omega⟩

theorem goBin_eq_of_le (buf : List Nat) :
    ∀ (c off : Nat), off + 50 * c ≤ buf.length + 2 →
      goBin buf c off = .ok (mapCat (List.range c) (recPosAt buf off),
                             mapCat (List.range c) (recNrmAt buf off)) := by
  intro c
  induction c with
  | zero =>
    intro off _
    simp [goBin, mapCat]
  | succ c ih =>
    intro off h
    obtain ⟨v, hv⟩ := stlRecord_some_of buf off (by omega)
    obtain ⟨n, a, b, d⟩ := v
    have hih := ih (off + 50) (by omega)
    have hshift : ∀ g : Nat → List Nat, (∀ i, g (i + 1) = g i) → True := fun _ _ => trivial
    have hr0p : recPosAt buf off 0 = v3L a ++ v3L b ++ v3L d := by
      simp [recPosAt, hv]
    have hr0n : recNrmAt buf off 0 = v3L n ++ v3L n ++ v3L n := by
      simp [recNrmAt, hv]
    have hstep_p : ∀ i, recPosAt buf off (i + 1) = recPosAt buf (off + 50) i := by
      intro i
      have harg : off + 50 * (i + 1) = off + 50 + 50 * i := by ring
      simp only [recPosAt, harg]
    have hstep_n : ∀ i, recNrmAt buf off (i + 1) = recNrmAt buf (off + 50) i := by
      intro i
      have harg : off + 50 * (i + 1) = off + 50 + 50 * i := by ring
      simp only [recNrmAt, harg]
    simp only [goBin, hv, hih, List.range_succ_eq_map, mapCat, mapCat_map, hr0p, hr0n]
    simp only [hstep_p, hstep_n]

/-- Claim C3 (confirmed): a binary STL buffer declaring `N` triangles
with at least `84 + 50*N` bytes decodes successfully: `triangleCount = N`,
positions are the 9N little-endian 32-bit vertex words of the N records
starting at offset 84 (50 bytes apart, vertices at record offset 12), the
normals are each record's 12-byte normal repeated for its 3 vertices
(9N words), and no index or color attribute is produced.  `N = 0` yields
the empty mesh, not an error (see the witness). -/
theorem stl_binary_decode_complete (buf : List Nat) (N : Nat)
    (hN : readU32 buf 80 = some N) (hlen : 84 + 50 * N ≤ buf.length) :
    parseBinary buf = .ok
      { triangleCount := N
      , positions := mapCat (List.range N) (recPosAt buf 84)
      , normals := mapCat (List.range N) (recNrmAt buf 84)
      , indices := none, colors := none } ∧
    (mapCat (List.range N) (recPosAt buf 84)).length = 9 * N ∧
    (mapCat (List.range N) (recNrmAt buf 84)).length = 9 * N ∧
    (∀ i, i < N → ∃ n a b d, stlRecord buf (84 + 50 * i) = some (n, a, b, d) ∧
      recPosAt buf 84 i = v3L a ++ v3L b ++ v3L d ∧
      recNrmAt buf 84 i = v3L n ++ v3L n ++ v3L n) := by
  have hg := goBin_eq_of_le buf N 84 (by omega)
  refine ⟨by simp [parseBinary, hN, hg], ?_, ?_, ?_⟩
  · exact (goBin_ok_lengths buf N 84 _ _ hg).1
  · exact (goBin_ok_lengths buf N 84 _ _ hg).2
  · intro i hi
    obtain ⟨v, hv⟩ := stlRecord_some_of buf (84 + 50 * i) (by omega)
    obtain ⟨n, a, b, d⟩ := v
    exact ⟨n, a, b, d, hv, by simp [recPosAt, hv], by simp [recNrmAt, hv]⟩

/-- Claim C4 (amended): `triangleCount` equals `positions.length / 9` for
both STL decoders; the PLY decoder returns the declared face count
(`fCount`) while `indices.length` is 3 times the number of accepted
triangular face rows, so `fCount` need not equal `indices.length / 3`
(see the counterexample). -/
theorem triangle_count_consistency :
    (∀ (buf : List Nat) (r : BinMesh), parseBinary buf = .ok r →
      r.triangleCount = r.positions.length / 9) ∧
    (∀ t : List Char, (parseASCII t).triangleCount = (parseASCII t).positions.length / 9) ∧
    (∀ t : List Char,
      (parsePlyAscii t).indices.length = 3 * (fLinesOf t).countP acceptedFaceRow) := by
  refine ⟨?_, ?_, ?_⟩
  · intro buf r h
    rcases hN : readU32 buf 80 with _ | N
    · simp [parseBinary, hN] at h
    · rcases hg : goBin buf N 84 with e | pr
      · simp [parseBinary, hN, hg] at h
      · obtain ⟨ps, ns⟩ := pr
        simp only [parseBinary, hN, hg, Except.ok.injEq] at h
        have hl := (goBin_ok_lengths buf N 84 ps ns (by rw [hg])).1
        rw [← h]
        simp only []
        omega
  · intro t
    have h9 : ∀ m ∈ scanFacets t,
        ((fun m => numsOf m.2.1 ++ numsOf m.2.2.1 ++ numsOf m.2.2.2) m).length = 9 := by
      intro m _
      simp [numsOf]
    have := mapCat_length_const (scanFacets t) _ 9 h9
    simp only [parseASCII, this]
    omega
  · intro t
    simp [parsePlyAscii, mapCat_faceIdx_length]

/-! ### PLY colors -/

theorem jsDiv_some (q : ℚ) (d : ℕ) : jsDiv (some q) d = some (q / d) := by
  simp only [jsDiv, Rat.mkRat_eq_div, Option.some.injEq]
  push_cast
  conv_rhs => rw [← Rat.num_div_den q]
  rw [div_div]

/-- Claim C8 (amended): when a red property was declared AND every vertex
row has at least 6 fields, each row's fields 4-6 are divided by 255 and
`colors.length = positions.length`; rows with 0-255 fields give colors in
`[0, 1]`.  (The unconditional `colors.length = positions.length` of the
claim is false: a row with fewer than 6 fields contributes positions but
no colors — see the counterexample.) -/
theorem ply_color_normalization (text : List Char)
    (hc : hasColorsOf text = true)
    (hrows : ∀ l ∈ vLinesOf text, 6 ≤ (jsFields l).length) :
    (parsePlyAscii text).colors.length = (parsePlyAscii text).positions.length ∧
    ((∀ l ∈ vLinesOf text, inRange (jsGet (jsFields l) 3) 0 255 ∧
        inRange (jsGet (jsFields l) 4) 0 255 ∧ inRange (jsGet (jsFields l) 5) 0 255) →
      ∀ c ∈ (parsePlyAscii text).colors, inRange c 0 1) := by
  have hcol3 : ∀ l ∈ vLinesOf text, (vertexCol true l).length = 3 := by
    intro l hl
    have h6 := hrows l hl
    simp [vertexCol, h6]
  have hpos3 : ∀ l ∈ vLinesOf text, (vertexPos l).length = 3 := by
    intro l _
    simp [vertexPos]
  constructor
  · simp only [parsePlyAscii, hc]
    rw [mapCat_length_const _ _ 3 hcol3, mapCat_length_const _ _ 3 hpos3]
  · intro hvals c hmem
    simp only [parsePlyAscii, hc] at hmem
    obtain ⟨l, hl, hcl⟩ := mem_mapCat.1 hmem
    have h6 := hrows l hl
    have hone : ∀ j, inRange (jsGet (jsFields l) j) 0 255 →
        inRange (jsDiv (jsGet (jsFields l) j) 255) 0 1 := by
      intro j hj
      rcases hq : jsGet (jsFields l) j with _ | q
      · rw [hq] at hj
        exact absurd hj (by simp [inRange])
      · rw [hq] at hj
        obtain ⟨hq0, hq255⟩ := hj
        rw [jsDiv_some]
        have h255 : ((255 : ℕ) : ℚ) = 255 := by norm_num
        rw [h255]
        refine ⟨by positivity, ?_⟩
        rw [div_le_one (by norm_num : (0 : ℚ) < 255)]
        exact hq255
    simp only [vertexCol, h6, if_true, if_pos] at hcl
    rcases List.mem_cons.1 hcl with rfl | hcl2
    · exact hone 3 (hvals l hl).1
    rcases List.mem_cons.1 hcl2 with rfl | hcl3
    · exact hone 4 (hvals l hl).2.1
    rcases List.mem_cons.1 hcl3 with rfl | hcl4
    · exact hone 5 (hvals l hl).2.2
    · exact absurd hcl4 (List.not_mem_nil c)

/-- Claim C8 counterexample: with a declared red property, a 6-field row
followed by a 3-field row yields 6 position entries but only 3 color
entries, so a present (nonempty) `colors` has `colors.length ≠
positions.length`. -/
theorem ply_color_length_mismatch :
    (parsePlyAscii cexPlyColorShort).hasColors = true ∧
    (parsePlyAscii cexPlyColorShort).colors ≠ [] ∧
    (parsePlyAscii cexPlyColorShort).colors.length = 3 ∧
    (parsePlyAscii cexPlyColorShort).positions.length = 6 := by
  refine ⟨by decide, by decide, by decide, by decide⟩

/-- Claim C8 witness: a fully colored 2-vertex PLY satisfies the amended
statement's hypotheses, giving equal lengths and colors within [0, 1]. -/
theorem ply_color_normalization_case :
    (parsePlyAscii cexPlyColorFull).colors.length =
      (parsePlyAscii cexPlyColorFull).positions.length ∧
    ∀ c ∈ (parsePlyAscii cexPlyColorFull).colors, inRange c 0 1 := by
  have h := ply_color_normalization cexPlyColorFull (by decide) (by decide)
  exact ⟨h.1, h.2 (by decide)⟩

/-- Claim C4 counterexample (PLY part): a single declared quad face is
skipped, so the face count returned by the decoder is 1 while
`indices.length / 3 = 0`. -/
theorem ply_face_count_mismatch :
    (parsePlyAscii cexPlyQuad).fCount = some 1 ∧
    (parsePlyAscii cexPlyQuad).indices.length = 0 ∧
    (parsePlyAscii cexPlyQuad).fCount ≠
      some (((parsePlyAscii cexPlyQuad).indices.length : ℤ) / 3) := by
  refine ⟨by decide, by decide, by decide⟩

/-! ### STL entry point and concrete buffers -/

set_option maxRecDepth 8192 in
/-- Claim C2 counterexample: a buffer declaring `N = 1` with only 132
bytes (`84 + 50*N` is 134, so the claim demands failure) decodes
successfully — the 2 attribute bytes of the last record are skipped
without being read. -/
theorem stl_binary_short_by_two_succeeds :
    cexStl132.length = 132 ∧ (132 : Nat) < 84 + 50 * 1 ∧
    readU32 cexStl132 80 = some 1 ∧
    parseBinary cexStl132 = .ok binMesh132 := by
  refine ⟨by decide, by decide, by decide, rfl⟩

set_option maxRecDepth 8192 in
/-- Claim C2 witness for the amended statement: a buffer declaring 10
triangles with data for only 2 fails with the range error. -/
theorem stl_binary_truncation_range_error_case :
    parseBinary cexStlTrunc = .error .rangeError := by
  have h := (stl_binary_truncation_range_error cexStlTrunc).2 10 (by decide)
  exact h.2 (by decide)

set_option maxRecDepth 8192 in
/-- Claim C3 witness: an 84-byte buffer declaring 0 triangles decodes to
the empty mesh, not an error. -/
theorem stl_binary_decode_complete_case :
    parseBinary cexStlEmpty = .ok
      { triangleCount := 0, positions := [], normals := []
      , indices := none, colors := none } := by
  have h := (stl_binary_decode_complete cexStlEmpty 0 (by decide) (by decide)).1
  simpa [mapCat] using h

set_option maxRecDepth 8192 in
/-- Claim C4 witness (binary STL part, at the concrete 132-byte buffer). -/
theorem triangle_count_consistency_case :
    binMesh132.triangleCount = binMesh132.positions.length / 9 :=
  triangle_count_consistency.1 cexStl132 binMesh132 rfl

/-- Claim C6 (amended): `parseSTL` performs no size check at all; a
buffer shorter than 80 bytes is still classified by the sniffing rule on
whatever bytes it has (`slice` clamps).  If classified ASCII, decoding
proceeds and succeeds; if classified binary, it fails — but with the
untyped `DataView` range error while reading the triangle count, not
with a dedicated size error, and only after classification. -/
theorem stl_short_buffer_classified (buf : List Nat) (h : buf.length < 80) :
    (sniffFormat buf = .ascii → ∃ r, parseSTL buf = .ok r ∧ r.format = .ascii) ∧
    (sniffFormat buf = .binary → parseSTL buf = .error .rangeError) := by
  cases hs : sniffIsAscii buf with
  | false =>
    constructor
    · intro ha
      exact absurd ha (by simp [sniffFormat, hs])
    · intro _
      have hb : parseBinary buf = .error .rangeError := by
        have hn : readU32 buf 80 = none := readU32_none_of buf 80 (by omega)
        simp [parseBinary, hn]
      simp [parseSTL, hs, hb]
  | true =>
    constructor
    · intro _
      refine ⟨{ geom := .asciiG (parseASCII (decodeBytes buf)), format := .ascii
              , triangleCount := (parseASCII (decodeBytes buf)).triangleCount }, ?_, rfl⟩
      simp [parseSTL, hs]
    · intro hb
      exact absurd hb (by simp [sniffFormat, hs])

set_option maxRecDepth 8192 in
/-- Claim C6 counterexample: a 7-byte buffer is not rejected by any size
check — it is classified as ASCII STL and decodes successfully to an
empty mesh. -/
theorem stl_short_ascii_succeeds :
    cexStlShort.length < 80 ∧
    parseSTL cexStlShort = .ok
      { geom := .asciiG { triangleCount := 0, positions := [], normals := []
                        , indices := none, colors := none }
      , format := .ascii, triangleCount := 0 } := by
  refine ⟨by decide, rfl⟩

/-- Claim C6 witness for the amended statement, at the same short
buffer. -/
theorem stl_short_buffer_classified_case :
    ∃ r, parseSTL cexStlShort = .ok r ∧ r.format = .ascii :=
  (stl_short_buffer_classified cexStlShort (by decide)).1 (by decide)

/-! ### Substring occurrence and trimming (format sniffing) -/

theorem leadsWith_iff (p : List Char) : ∀ s, leadsWith p s = true ↔ ∃ r, s = p ++ r := by
  induction p with
  | nil =>
    intro s
    simp [leadsWith]
  | cons x xs ih =>
    intro s
    cases s with
    | nil =>
      simp only [leadsWith]
      constructor
      · intro hh; cases hh
      · rintro ⟨r, hr⟩; cases hr
    | cons c cs =>
      simp only [leadsWith]
      by_cases hx : x = c
      · subst hx
        rw [if_pos rfl, ih cs]
        constructor
        · rintro ⟨r, rfl⟩
          exact ⟨r, by simp⟩
        · rintro ⟨r, hr⟩
          simp only [List.cons_append] at hr
          injection hr with h1 h2
          exact ⟨r, h2⟩
      · rw [if_neg hx]
        constructor
        · intro hh; cases hh
        · rintro ⟨r, hr⟩
          simp only [List.cons_append] at hr
          injection hr with h1 h2
          exact absurd h1.symm hx

theorem occursIn_iff (pat : List Char) :
    ∀ s, occursIn pat s = true ↔ ∃ a b, s = a ++ pat ++ b := by
  intro s
  induction s with
  | nil =>
    simp only [occursIn, decide_eq_true_eq]
    constructor
    · rintro rfl
      exact ⟨[], [], rfl⟩
    · rintro ⟨a, b, hab⟩
      rcases List.append_eq_nil.1 (List.append_eq_nil.1 hab.symm).1 with ⟨_, h2⟩
      · exact h2.symm ▸ rfl
  | cons c rest ih =>
    simp only [occursIn, Bool.or_eq_true, leadsWith_iff, ih]
    constructor
    · rintro (⟨r, hr⟩ | ⟨a, b, hab⟩)
      · exact ⟨[], r, by simpa using hr⟩
      · exact ⟨c :: a, b, by simp [hab]⟩
    · rintro ⟨a, b, hab⟩
      cases a with
      | nil =>
        exact Or.inl ⟨b, by simpa using hab⟩
      | cons a0 a' =>
        simp only [List.cons_append] at hab
        injection hab with h1 h2
        exact Or.inr ⟨a', b, h2⟩

/-- Moving an occurrence of a pattern that starts with a non-whitespace
character across an all-whitespace segment on the left. -/
theorem seg_shift (p : Char) (ps : List Char) (hp : isJsWs p = false) :
    ∀ (u t a b : List Char), u ++ t = a ++ (p :: ps) ++ b →
      (∀ c ∈ u, isJsWs c = true) → ∃ a2 b2, t = a2 ++ (p :: ps) ++ b2 := by
  intro u
  induction u with
  | nil =>
    intro t a b h _
    exact ⟨a, b, by simpa using h⟩
  | cons c u' ih =>
    intro t a b h hu
    cases a with
    | nil =>
      have h' : c :: (u' ++ t) = p :: (ps ++ b) := by simpa using h
      injection h' with h1 h2
      have hc : isJsWs c = true := hu c (by simp)
      rw [h1, hp] at hc
      cases hc
    | cons a0 a' =>
      have h' : c :: (u' ++ t) = a0 :: (a' ++ ((p :: ps) ++ b)) := by
        simpa [List.append_assoc] using h
      injection h' with h1 h2
      refine ih t a' b ?_ (fun x hx => hu x (by simp [hx]))
      simpa [List.append_assoc] using h2

theorem occursIn_append_of (pat u t : List Char) (h : occursIn pat t = true) :
    occursIn pat (u ++ t) = true := by
  rw [occursIn_iff] at h ⊢
  obtain ⟨a, b, rfl⟩ := h
  exact ⟨u ++ a, b, by simp⟩

theorem occursIn_append_left_of (pat t w : List Char) (h : occursIn pat t = true) :
    occursIn pat (t ++ w) = true := by
  rw [occursIn_iff] at h ⊢
  obtain ⟨a, b, rfl⟩ := h
  exact ⟨a, b ++ w, by simp⟩

/-- Trimming whitespace does not change whether a nonempty, all
non-whitespace pattern occurs (`includes('binary')` is insensitive to the
`trim()` the sniffer applies first). -/
theorem occursIn_jsTrim (p : Char) (ps : List Char)
    (hpat : ∀ c ∈ p :: ps, isJsWs c = false) (s : List Char) :
    occursIn (p :: ps) (jsTrim s) = occursIn (p :: ps) s := by
  have hrev : ∀ t : List Char, occursIn (p :: ps) t = true ↔
      ∃ a b, t.reverse = a ++ (p :: ps).reverse ++ b := by
    intro t
    rw [occursIn_iff]
    constructor
    · rintro ⟨a, b, rfl⟩
      exact ⟨b.reverse, a.reverse, by simp [List.append_assoc]⟩
    · rintro ⟨a, b, hab⟩
      refine ⟨b.reverse, a.reverse, ?_⟩
      have h2 := congrArg List.reverse hab
      simpa [List.append_assoc] using h2
  -- the whitespace prefix does not matter
  have step1 : ∀ t : List Char, occursIn (p :: ps) (jsTrimStart t) = true ↔
      occursIn (p :: ps) t = true := by
    intro t
    constructor
    · intro h
      have hsplit := List.takeWhile_append_dropWhile (p := isJsWs) (l := t)
      rw [← hsplit]
      exact occursIn_append_of _ _ _ h
    · intro h
      rw [occursIn_iff] at h
      obtain ⟨a, b, hab⟩ := h
      have hsplit := List.takeWhile_append_dropWhile (p := isJsWs) (l := t)
      obtain ⟨a2, b2, h2⟩ := seg_shift p ps (hpat p (by simp)) (t.takeWhile isJsWs)
        (t.dropWhile isJsWs) a b (by rw [hsplit, hab]) (fun c hc => List.mem_takeWhile_imp hc)
      rw [occursIn_iff]
      exact ⟨a2, b2, h2⟩
  -- the reversed pattern and its head
  have hq : ∃ q qs, (p :: ps).reverse = q :: qs := by
    rcases hrv : (p :: ps).reverse with _ | ⟨q, qs⟩
    · exact absurd (congrArg List.length hrv) (by simp)
    · exact ⟨q, qs, rfl⟩
  obtain ⟨q, qs, hqs⟩ := hq
  have hqmem : q ∈ p :: ps := by
    have h1 : q ∈ (p :: ps).reverse := by rw [hqs]; exact List.mem_cons_self q qs
    exact List.mem_reverse.1 h1
  -- the whitespace suffix does not matter either
  have hdecomp : jsTrimStart s =
      jsTrim s ++ ((jsTrimStart s).reverse.takeWhile isJsWs).reverse := by
    have h2 := congrArg List.reverse
      (List.takeWhile_append_dropWhile (p := isJsWs) (l := (jsTrimStart s).reverse))
    simp only [List.reverse_append, List.reverse_reverse] at h2
    simp only [jsTrim]
    exact h2.symm
  have step2 : occursIn (p :: ps) (jsTrim s) = true ↔
      occursIn (p :: ps) (jsTrimStart s) = true := by
    constructor
    · intro h
      rw [hdecomp]
      exact occursIn_append_left_of _ _ _ h
    · intro h
      rw [hrev] at h
      obtain ⟨a, b, hab⟩ := h
      rw [hqs] at hab
      have hsplit := List.takeWhile_append_dropWhile
        (p := isJsWs) (l := (jsTrimStart s).reverse)
      obtain ⟨a2, b2, h2⟩ := seg_shift q qs (hpat q hqmem)
        ((jsTrimStart s).reverse.takeWhile isJsWs)
        ((jsTrimStart s).reverse.dropWhile isJsWs) a b
        (by rw [hsplit, hab]) (fun c hc => List.mem_takeWhile_imp hc)
      rw [hrev]
      refine ⟨a2, b2, ?_⟩
      have h3 : (jsTrim s).reverse = (jsTrimStart s).reverse.dropWhile isJsWs := by
        simp [jsTrim]
      rw [h3, h2, hqs]
  have hiff := step2.trans (step1 s)
  cases hcase : occursIn (p :: ps) s with
  | false =>
    cases hcase2 : occursIn (p :: ps) (jsTrim s) with
    | false => rfl
    | true =>
      have := hiff.1 hcase2
      rw [hcase] at this
      cases this
  | true =>
    cases hcase2 : occursIn (p :: ps) (jsTrim s) with
    | false =>
      have := hiff.2 hcase
      rw [hcase2] at this
      cases this
    | true => rfl

/-- Claim C5 (confirmed): the sniffer classifies a buffer as ASCII STL
exactly when the decoded, whitespace-trimmed first 80 bytes start with
`solid` and the substring `binary` does not occur anywhere in the decoded
80 bytes (trimmed or not — `occursIn_jsTrim` shows the two readings
agree, because `binary` contains no whitespace); every other buffer is
classified binary. -/
theorem stl_sniffer_classification (buf : List Nat) :
    (sniffFormat buf = .ascii ↔
      (leadsWith solidTok (jsTrim (decodeBytes (buf.take 80))) = true ∧
        occursIn binaryTok (decodeBytes (buf.take 80)) = false)) ∧
    (sniffFormat buf = .binary ↔
      ¬(leadsWith solidTok (jsTrim (decodeBytes (buf.take 80))) = true ∧
        occursIn binaryTok (decodeBytes (buf.take 80)) = false)) := by
  have hocc : occursIn binaryTok (jsTrim (decodeBytes (buf.take 80))) =
      occursIn binaryTok (decodeBytes (buf.take 80)) :=
    occursIn_jsTrim 'b' (("inary").toList) (by decide) _
  rw [← hocc]
  by_cases hl : leadsWith solidTok (jsTrim (decodeBytes (buf.take 80))) = true
  · by_cases ho : occursIn binaryTok (jsTrim (decodeBytes (buf.take 80))) = true
    · simp [sniffFormat, sniffIsAscii, hl, ho]
    · rw [Bool.not_eq_true] at ho
      simp [sniffFormat, sniffIsAscii, hl, ho]
  · rw [Bool.not_eq_true] at hl
    by_cases ho : occursIn binaryTok (jsTrim (decodeBytes (buf.take 80))) = true
    · simp [sniffFormat, sniffIsAscii, hl, ho]
    · rw [Bool.not_eq_true] at ho
      simp [sniffFormat, sniffIsAscii, hl, ho]

/-- Claim C5 witness: a short `solid` buffer classifies as ASCII via the
characterization. -/
theorem stl_sniffer_classification_case :
    sniffFormat cexStlShort = .ascii :=
  (stl_sniffer_classification cexStlShort).1.mpr (by decide)

/-! ### ASCII STL scan -/

theorem stripTok_length (tok : List Char) :
    ∀ s r, stripTok tok s = some r → r.length + tok.length = s.length := by
  induction tok with
  | nil =>
    intro s r h
    simp only [stripTok, Option.some.injEq] at h
    simp [← h]
  | cons t ts ih =>
    intro s r h
    cases s with
    | nil => cases h
    | cons c cs =>
      simp only [stripTok] at h
      split_ifs at h with ht
      have := ih cs r h
      simp only [List.length_cons]
      omega

theorem ws1_length : ∀ s r, ws1 s = some r → r.length < s.length := by
  intro s r h
  cases s with
  | nil => cases h
  | cons c cs =>
    simp only [ws1] at h
    split_ifs at h with hc
    simp only [Option.some.injEq] at h
    have := dropWhile_len_le isJsWs cs
    simp only [← h, List.length_cons]
    omega

theorem num1_length : ∀ s tok r, num1 s = some (tok, r) → r.length < s.length := by
  intro s tok r h
  simp only [num1] at h
  split_ifs at h with he
  simp only [Option.some.injEq, Prod.mk.injEq] at h
  have hsplit := List.takeWhile_append_dropWhile (p := isNumChar) (l := s)
  have hlen := congrArg List.length hsplit
  simp only [List.length_append] at hlen
  have hpos : 0 < (s.takeWhile isNumChar).length := by
    cases htk : s.takeWhile isNumChar with
    | nil => exact absurd htk he
    | cons x xs => simp
  rw [← h.2]
  omega

theorem wsNum_length : ∀ s tok r, wsNum s = some (tok, r) → r.length < s.length := by
  intro s tok r h
  simp only [wsNum] at h
  rcases h1 : ws1 s with _ | s1
  · rw [h1] at h; cases h
  · rw [h1] at h
    have := ws1_length s s1 h1
    have := num1_length s1 tok r h
    omega

theorem numTriple_length : ∀ s t r, numTriple s = some (t, r) → r.length < s.length := by
  intro s t r h
  rcases h1 : wsNum s with _ | ⟨a, s1⟩
  · simp only [numTriple, h1] at h; cases h
  · rcases h2 : wsNum s1 with _ | ⟨b, s2⟩
    · simp only [numTriple, h1, h2] at h; cases h
    · rcases h3 : wsNum s2 with _ | ⟨c, s3⟩
      · simp only [numTriple, h1, h2, h3] at h; cases h
      · simp only [numTriple, h1, h2, h3, Option.some.injEq, Prod.mk.injEq] at h
        have l1 := wsNum_length s a s1 h1
        have l2 := wsNum_length s1 b s2 h2
        have l3 := wsNum_length s2 c s3 h3
        rw [← h.2]
        omega

theorem searchVertex_length :
    ∀ s t r, searchVertex s = some (t, r) → r.length < s.length := by
  intro s
  induction s with
  | nil => intro t r h; cases h
  | cons c cs ih =>
    intro t r h
    rcases h1 : stripTok vertexTok (c :: cs) with _ | s0
    · simp only [searchVertex, h1] at h
      have := ih t r h
      simp only [List.length_cons]
      omega
    · rcases h2 : numTriple s0 with _ | ⟨t0, r0⟩
      · simp only [searchVertex, h1, h2] at h
        have := ih t r h
        simp only [List.length_cons]
        omega
      · simp only [searchVertex, h1, h2, Option.some.injEq, Prod.mk.injEq] at h
        have hs := stripTok_length vertexTok (c :: cs) s0 h1
        have hn := numTriple_length s0 t0 r0 h2
        have htok : vertexTok.length = 6 := rfl
        rw [← h.2]
        simp only [List.length_cons] at hs ⊢
        omega

theorem matchFacetAt_length :
    ∀ s m r, matchFacetAt s = some (m, r) → r.length < s.length := by
  intro s m r h
  rcases h1 : stripTok facetTok s with _ | s1
  · simp only [matchFacetAt, h1] at h; cases h
  rcases h2 : ws1 s1 with _ | s2
  · simp only [matchFacetAt, h1, h2] at h; cases h
  rcases h3 : stripTok normalTok s2 with _ | s3
  · simp only [matchFacetAt, h1, h2, h3] at h; cases h
  rcases h4 : numTriple s3 with _ | ⟨n, s4⟩
  · simp only [matchFacetAt, h1, h2, h3, h4] at h; cases h
  rcases h5 : searchVertex s4 with _ | ⟨w1, s5⟩
  · simp only [matchFacetAt, h1, h2, h3, h4, h5] at h; cases h
  rcases h6 : searchVertex s5 with _ | ⟨w2, s6⟩
  · simp only [matchFacetAt, h1, h2, h3, h4, h5, h6] at h; cases h
  rcases h7 : searchVertex s6 with _ | ⟨w3, s7⟩
  · simp only [matchFacetAt, h1, h2, h3, h4, h5, h6, h7] at h; cases h
  simp only [matchFacetAt, h1, h2, h3, h4, h5, h6, h7, Option.some.injEq,
    Prod.mk.injEq] at h
  have l1 := stripTok_length facetTok s s1 h1
  have l2 := ws1_length s1 s2 h2
  have l3 := stripTok_length normalTok s2 s3 h3
  have l4 := numTriple_length s3 n s4 h4
  have l5 := searchVertex_length s4 w1 s5 h5
  have l6 := searchVertex_length s5 w2 s6 h6
  have l7 := searchVertex_length s6 w3 s7 h7
  have hf : facetTok.length = 5 := rfl
  rw [← h.2]
  omega

/-- The fuel passed to `scanFacetsF` is irrelevant as long as it exceeds
the text length: the scan is the unbounded `exec` loop of the source. -/
theorem scanFacetsF_congr :
    ∀ f1 f2 s, s.length < f1 → s.length < f2 → scanFacetsF f1 s = scanFacetsF f2 s := by
  intro f1
  induction f1 with
  | zero =>
    intro f2 s h1 _
    exact absurd h1 (by omega)
  | succ f1 ih =>
    intro f2 s h1 h2
    cases f2 with
    | zero => exact absurd h2 (by omega)
    | succ f2 =>
      cases s with
      | nil => simp [scanFacetsF]
      | cons c rest =>
        simp only [scanFacetsF]
        rcases hm : matchFacetAt (c :: rest) with _ | pr
        · have hr1 : rest.length < f1 := by
            simp only [List.length_cons] at h1
            omega
          have hr2 : rest.length < f2 := by
            simp only [List.length_cons] at h2
            omega
          exact ih f2 rest hr1 hr2
        · obtain ⟨m, after⟩ := pr
          have ha := matchFacetAt_length (c :: rest) m after hm
          have ha1 : after.length < f1 := by
            simp only [List.length_cons] at h1 ha
            omega
          have ha2 : after.length < f2 := by
            simp only [List.length_cons] at h2 ha
            omega
          show m :: scanFacetsF f1 after = m :: scanFacetsF f2 after
          rw [ih f2 after ha1 ha2]

/-- Claim C7 (confirmed): the ASCII STL decoder cannot fail — it is a
total function; text not forming a complete facet-pattern match is simply
not collected by the scan.  `triangleCount` is the number of matches,
`positions` has 9 entries per match, `normals` repeats each facet's
captured normal once per vertex, no indices or colors are produced, and
zero matches give a valid empty mesh. -/
theorem stl_ascii_lenient_scan (t : List Char) :
    (parseASCII t).triangleCount = (scanFacets t).length ∧
    (parseASCII t).positions.length = 9 * (parseASCII t).triangleCount ∧
    (parseASCII t).normals.length = 9 * (parseASCII t).triangleCount ∧
    (parseASCII t).normals =
      mapCat (scanFacets t) (fun m => numsOf m.1 ++ numsOf m.1 ++ numsOf m.1) ∧
    (parseASCII t).indices = none ∧ (parseASCII t).colors = none ∧
    ((scanFacets t).length = 0 → (parseASCII t).triangleCount = 0 ∧
      (parseASCII t).positions = [] ∧ (parseASCII t).normals = []) := by
  have hp9 : ∀ m ∈ scanFacets t,
      ((fun m => numsOf m.2.1 ++ numsOf m.2.2.1 ++ numsOf m.2.2.2) m).length = 9 := by
    intro m _
    simp [numsOf]
  have hn9 : ∀ m ∈ scanFacets t,
      ((fun m => numsOf m.1 ++ numsOf m.1 ++ numsOf m.1) m).length = 9 := by
    intro m _
    simp [numsOf]
  refine ⟨rfl, ?_, ?_, rfl, rfl, rfl, ?_⟩
  · simp only [parseASCII]
    rw [mapCat_length_const _ _ 9 hp9]
  · simp only [parseASCII]
    rw [mapCat_length_const _ _ 9 hn9]
  · intro h0
    have he : scanFacets t = [] := List.length_eq_zero.1 h0
    simp [parseASCII, he, mapCat]

/-- Claim C7 witness: text with zero matching facet blocks yields the
valid empty mesh. -/
theorem stl_ascii_lenient_scan_case :
    (parseASCII cexAsciiNone).triangleCount = 0 ∧
      (parseASCII cexAsciiNone).positions = [] ∧ (parseASCII cexAsciiNone).normals = [] :=
  (stl_ascii_lenient_scan cexAsciiNone).2.2.2.2.2.2 (by decide)

end MeshDecode
